import Mathlib

/-!
Verification of the sentiment aggregation and time-series merge engine of the
AI-stock-analyzer news pipeline.  The Python sources under `src/summarize/`
(`sentiment.py`, `company.py`, `validator.py`, `time_series.py`) and
`src/pipeline.py` are shallowly embedded below: pure functions become Lean
functions over `List Char` / `String` / `ℚ`, fallible external calls become
`Except Unit` parameters, and the pandas tables become explicit lists of rows.
-/

namespace StockNews

/-! ## Python string primitives

Helpers mirroring the Python `str` operations used by the sources.  They are
written over `List Char` and wrapped into `String` at the call sites.
-/

/-- Characters treated as whitespace by Python's `str.strip()` (the ones that
can occur in the service responses handled here). -/
def isPyWhitespace (c : Char) : Bool :=
  c = ' ' ∨ c = '\t' ∨ c = '\n' ∨ c = '\r' ∨ c = '\x0b' ∨ c = '\x0c' ∨ c = '　'

/-- Python `str.strip()` on a character list. -/
def pyStrip (cs : List Char) : List Char :=
  ((cs.dropWhile isPyWhitespace).reverse.dropWhile isPyWhitespace).reverse

/-- Python `str.strip()` on a `String`. -/
def pyStripS (s : String) : String :=
  String.mk (pyStrip s.data)

/-- Python `str.lower()` (ASCII range; the labels normalized by the code are
ASCII or CJK, and CJK characters are unchanged by `lower`). -/
def pyLower (s : String) : String :=
  String.mk (s.data.map Char.toLower)

/-- Python `str.upper()` (ASCII range, as above). -/
def pyUpper (s : String) : String :=
  String.mk (s.data.map Char.toUpper)

/-- Whether `pat` occurs as a contiguous substring, as Python's `in`. -/
def hasSub (pat : List Char) : List Char → Bool
  | [] => pat.isEmpty
  | c :: cs => pat.isPrefixOf (c :: cs) || hasSub pat cs

/-- First occurrence split: returns the text before and after the first
occurrence of `sep`, i.e. Python `s.split(sep)[0]` / the remainder after it;
`none` when `sep` does not occur. -/
def splitFirst (sep : List Char) : List Char → Option (List Char × List Char)
  | [] => if sep.isEmpty then some ([], []) else none
  | c :: cs =>
    if sep.isPrefixOf (c :: cs) then some ([], (c :: cs).drop sep.length)
    else match splitFirst sep cs with
      | some (pre, post) => some (c :: pre, post)
      | none => none

/-- Python `s.split(sep)[0]`: the text before the first occurrence of `sep`
(the whole string when `sep` is absent). -/
def beforeFirst (sep cs : List Char) : List Char :=
  match splitFirst sep cs with
  | some (pre, _) => pre
  | none => cs

/-- A Python dict built by later-keys-overwrite insertion (`dict(zip(..))`,
JSON object literals): lookup returns the value of the last binding. -/
def dictGet (kvs : List (String × String)) (k : String) : Option String :=
  kvs.reverse.lookup k

/-! ## `SentimentAnalyzer._normalize_label` and `calculate_score`
(`src/summarize/sentiment.py`) -/

/-- The `map_label` dict of `SentimentAnalyzer._normalize_label`. -/
def sentimentLabelMap : List (String × String) :=
  [("positive", "pos"), ("pos", "pos"),
   ("neutral", "neu"), ("neu", "neu"),
   ("negative", "neg"), ("neg", "neg"),
   ("正面", "pos"), ("中性", "neu"), ("負面", "neg")]

/-- `SentimentAnalyzer._normalize_label`: `map_label.get(str(label).lower(), "neu")`. -/
def normalize_label (label : String) : String :=
  (dictGet sentimentLabelMap (pyLower label)).getD "neu"

/-- `SentimentAnalyzer.calculate_score` over exact rationals
(`0.67` is the literal `67/100`):
`term = (confidence / 0.67 - 33 / 67) / 2`, then
`0.5 + term` for `pos`, `0.5` for `neu`, `0.5 - term` otherwise (`neg`). -/
def calculate_score (label : String) (confidence : ℚ) : ℚ :=
  let term := (confidence / (67 / 100) - 33 / 67) / 2
  if label = "pos" then 1 / 2 + term
  else if label = "neu" then 1 / 2
  else 1 / 2 - term

/-! ## A small JSON reader

`SentimentAnalyzer.generate_sentiment_label` calls `json.loads` on the cleaned
service response.  The prompt requests a flat `label`/`confidence` object, so
the reader below models `json.loads` on flat objects (string, number, boolean
and null fields, arrays of those at top level); inputs outside this fragment
(nested containers, string escapes, exponent numbers) answer `none`, which the
embedding treats like a `JSONDecodeError`, i.e. it falls through to the
pattern-extraction branch just as the Python handler does. -/

/-- The opening brace character, by code point. -/
def lbraceChar : Char := Char.ofNat 123

/-- The closing brace character, by code point. -/
def rbraceChar : Char := Char.ofNat 125

/-- A flat JSON value. -/
inductive JVal where
  | str (s : String)
  | num (q : ℚ)
  | bool (b : Bool)
  | null
deriving DecidableEq

/-- JSON insignificant whitespace. -/
def isJsonWs (c : Char) : Bool :=
  c = ' ' ∨ c = '\t' ∨ c = '\n' ∨ c = '\r'

/-- ASCII decimal digit. -/
def isAsciiDigit (c : Char) : Bool :=
  '0' ≤ c ∧ c ≤ '9'

/-- Numeric value of a digit string. -/
def digitsVal (ds : List Char) : ℕ :=
  ds.foldl (fun a c => 10 * a + (c.toNat - '0'.toNat)) 0

/-- Parse a JSON string literal (no escape sequences); returns it and the rest. -/
def parseJsonString : List Char → Option (String × List Char)
  | '"' :: rest =>
    let content := rest.takeWhile (fun c => c ≠ '"' ∧ c ≠ '\\')
    match rest.drop content.length with
    | '"' :: r2 => some (String.mk content, r2)
    | _ => none
  | _ => none

/-- Parse a JSON number `-?digits(.digits)?`; returns its value and the rest. -/
def parseJsonNumber (cs : List Char) : Option (ℚ × List Char) :=
  let (sign, cs1) : ℚ × List Char :=
    match cs with
    | '-' :: r => (-1, r)
    | _ => (1, cs)
  let ip := cs1.takeWhile isAsciiDigit
  if ip.isEmpty then none
  else
    match cs1.drop ip.length with
    | '.' :: r2 =>
      let fp := r2.takeWhile isAsciiDigit
      if fp.isEmpty then none
      else some (sign * (digitsVal ip + digitsVal fp / 10 ^ fp.length), r2.drop fp.length)
    | r2 => some (sign * digitsVal ip, r2)

/-- Parse one flat JSON value. -/
def parseJVal (cs : List Char) : Option (JVal × List Char) :=
  match parseJsonString cs with
  | some (s, r) => some (.str s, r)
  | none =>
    if "true".data.isPrefixOf cs then some (.bool true, cs.drop 4)
    else if "false".data.isPrefixOf cs then some (.bool false, cs.drop 5)
    else if "null".data.isPrefixOf cs then some (.null, cs.drop 4)
    else match parseJsonNumber cs with
      | some (q, r) => some (.num q, r)
      | none => none

/-- Parse the members of a JSON object after the opening brace (at least one
member expected); `fuel` bounds the recursion and always suffices because each
step consumes input. -/
def parseObjBody : ℕ → List Char → List (String × JVal) → Option (List (String × JVal) × List Char)
  | 0, _, _ => none
  | fuel + 1, cs, acc =>
    match parseJsonString (cs.dropWhile isJsonWs) with
    | none => none
    | some (k, r1) =>
      match r1.dropWhile isJsonWs with
      | ':' :: r2 =>
        match parseJVal (r2.dropWhile isJsonWs) with
        | none => none
        | some (v, r3) =>
          match r3.dropWhile isJsonWs with
          | ',' :: r4 => parseObjBody fuel r4 (acc ++ [(k, v)])
          | c :: r4 => if c = rbraceChar then some (acc ++ [(k, v)], r4) else none
          | [] => none
      | _ => none

/-- Parse a flat JSON object starting at an opening brace. -/
def parseObj (cs : List Char) : Option (List (String × JVal) × List Char) :=
  match cs with
  | c :: r1 =>
    if c = lbraceChar then
      match r1.dropWhile isJsonWs with
      | c2 :: r2 => if c2 = rbraceChar then some ([], r2) else parseObjBody (r1.length + 1) r1 []
      | [] => none
    else none
  | [] => none

/-- One element of a top-level JSON array: a flat object or a flat value. -/
inductive JElem where
  | obj (kvs : List (String × JVal))
  | flat (v : JVal)

/-- Parse the elements of a JSON array after the opening bracket. -/
def parseArrBody : ℕ → List Char → List JElem → Option (List JElem × List Char)
  | 0, _, _ => none
  | fuel + 1, cs, acc =>
    let cs1 := cs.dropWhile isJsonWs
    let elem : Option (JElem × List Char) :=
      match parseObj cs1 with
      | some (kvs, r) => some (.obj kvs, r)
      | none =>
        match parseJVal cs1 with
        | some (v, r) => some (.flat v, r)
        | none => none
    match elem with
    | none => none
    | some (e, r1) =>
      match r1.dropWhile isJsonWs with
      | ',' :: r2 => parseArrBody fuel r2 (acc ++ [e])
      | ']' :: r2 => some (acc ++ [e], r2)
      | _ => none

/-- Parse a JSON array starting at `[`. -/
def parseArr (cs : List Char) : Option (List JElem × List Char) :=
  match cs with
  | '[' :: r1 =>
    match r1.dropWhile isJsonWs with
    | ']' :: r2 => some ([], r2)
    | _ => parseArrBody (r1.length + 1) r1 []
  | _ => none

/-- `json.loads` followed by the source's shape handling: a successful parse of
a dict — or of a nonempty list whose first element is a dict (`result =
result[0]`) — yields its members; a parse failure, or a parsed value that is
not a dict, answers `none` (both continue with the regex fallback in the
source). -/
def jsonTry (cs : List Char) : Option (List (String × JVal)) :=
  let cs1 := cs.dropWhile isJsonWs
  match parseObj cs1 with
  | some (kvs, rest) => if (rest.dropWhile isJsonWs).isEmpty then some kvs else none
  | none =>
    match parseArr cs1 with
    | some (JElem.obj kvs :: _, rest) =>
      if (rest.dropWhile isJsonWs).isEmpty then some kvs else none
    | _ => none

/-- Python dict lookup on parsed JSON members (later duplicate keys overwrite
earlier ones, as in `json.loads`). -/
def jDictGet (kvs : List (String × JVal)) (k : String) : Option JVal :=
  kvs.reverse.lookup k

/-- Python `str(..)` as applied to the parsed `label` value before
`.lower()`: strings pass through; any non-string stringifies to text outside
the synonym table, which `_normalize_label` sends to `"neu"`, so a
representative out-of-table string models it. -/
def jStr : JVal → String
  | .str s => s
  | _ => ""

/-- Python `float(..)` on a string of digits and dots (the only shapes
reaching it here: regex captures of `[\d\.]+` and JSON string fields);
`none` models a raised `ValueError`. -/
def pyFloat (cs : List Char) : Option ℚ :=
  let ip := cs.takeWhile isAsciiDigit
  match cs.drop ip.length with
  | [] => if ip.isEmpty then none else some (digitsVal ip)
  | '.' :: fp =>
    if fp.all isAsciiDigit ∧ (¬ ip.isEmpty ∨ ¬ fp.isEmpty) then
      some (digitsVal ip + digitsVal fp / 10 ^ fp.length)
    else none
  | _ => none

/-- Python `float(..)` on a parsed JSON value; `none` models a raised
`ValueError`/`TypeError` (caught by the outer handler in the source). -/
def jFloat : JVal → Option ℚ
  | .num q => some q
  | .str s => pyFloat s.data
  | .bool b => some (if b then 1 else 0)
  | .null => none

/-! ## `SentimentAnalyzer.generate_sentiment_label` (`src/summarize/sentiment.py`) -/

/-- The markdown cleanup step of `generate_sentiment_label`:
`content.split("```json")[1].split("```")[0].strip()` when a ```` ```json ````
fence is present, else the same with a bare ```` ``` ```` fence, else the
content unchanged. -/
def mdStrip (cs : List Char) : List Char :=
  match splitFirst "```json".data cs with
  | some (_, after) => pyStrip (beforeFirst "```".data after)
  | none =>
    match splitFirst "```".data cs with
    | some (_, after) => pyStrip (beforeFirst "```".data after)
    | none => cs

/-- Python regex `\w` restricted to the character classes that occur in
sentiment labels: ASCII alphanumerics, underscore, and CJK ideographs. -/
def isWordChar (c : Char) : Bool :=
  ('a' ≤ c ∧ c ≤ 'z') ∨ ('A' ≤ c ∧ c ≤ 'Z') ∨ isAsciiDigit c ∨ c = '_' ∨
    (0x4E00 ≤ c.toNat ∧ c.toNat ≤ 0x9FFF)

/-- Match `"label"\s*:\s*"(\w+)"` anchored at the head of the input, returning
the capture.  The greedy `\s*`/`\w+` loops admit no useful backtracking
against the literals that follow them, so maximal munch is exact. -/
def matchLabelAt (cs : List Char) : Option (List Char) :=
  if "\"label\"".data.isPrefixOf cs then
    match (cs.drop "\"label\"".data.length).dropWhile isPyWhitespace with
    | ':' :: r2 =>
      match r2.dropWhile isPyWhitespace with
      | '"' :: r4 =>
        let w := r4.takeWhile isWordChar
        if ¬ w.isEmpty ∧ (r4.drop w.length).head? = some '"' then some w else none
      | _ => none
    | _ => none
  else none

/-- `re.search` of the label pattern: first position where it matches. -/
def searchLabel : List Char → Option (List Char)
  | [] => none
  | c :: cs =>
    match matchLabelAt (c :: cs) with
    | some w => some w
    | none => searchLabel cs

/-- Match `"confidence"\s*:\s*([\d\.]+)` anchored at the head of the input,
returning the capture. -/
def matchConfAt (cs : List Char) : Option (List Char) :=
  if "\"confidence\"".data.isPrefixOf cs then
    match (cs.drop "\"confidence\"".data.length).dropWhile isPyWhitespace with
    | ':' :: r2 =>
      let r3 := r2.dropWhile isPyWhitespace
      let g := r3.takeWhile (fun c => isAsciiDigit c ∨ c = '.')
      if g.isEmpty then none else some g
    | _ => none
  else none

/-- `re.search` of the confidence pattern: first position where it matches. -/
def searchConf : List Char → Option (List Char)
  | [] => none
  | c :: cs =>
    match matchConfAt (c :: cs) with
    | some g => some g
    | none => searchConf cs

/-- The regex fallback branch of `generate_sentiment_label`: label defaults to
`"neu"`, confidence to `0.5` (also on a `float` failure); when at least one
pattern matched, the pair is returned through `_normalize_label`, otherwise
the unparsable default `("neu", 0.5)` is returned. -/
def regexFallback (content : List Char) : String × ℚ :=
  let lm := searchLabel content
  let cm := searchConf content
  if lm.isSome || cm.isSome then
    let label : String :=
      match lm with
      | some w => String.mk w
      | none => "neu"
    let confidence : ℚ :=
      match cm with
      | some g =>
        match pyFloat g with
        | some v => v
        | none => mkRat 1 2
      | none => mkRat 1 2
    (normalize_label label, confidence)
  else ("neu", mkRat 1 2)

/-- The parsing cascade of `generate_sentiment_label` applied to the raw
service response text (`0.5` is written `mkRat 1 2`): strip, markdown cleanup,
`json.loads` attempt — whose `float(confidence)` failure lands in the outer
exception handler, i.e. `("neu", 0.5)` — then regex fallback on the original
stripped content. -/
def parseSentimentContent (content : String) : String × ℚ :=
  let cs := pyStrip content.data
  match jsonTry (mdStrip cs) with
  | some kvs =>
    let labelV := (jDictGet kvs "label").getD (.str "neu")
    match jFloat ((jDictGet kvs "confidence").getD (.num (mkRat 1 2))) with
    | some c => (normalize_label (jStr labelV), c)
    | none => ("neu", mkRat 1 2)
  | none => regexFallback cs

/-- `SentimentAnalyzer.generate_sentiment_label`: the service call either
fails (any exception → `("neu", 0.5)`) or returns content fed to the cascade. -/
def generate_sentiment_label (resp : Except Unit String) : String × ℚ :=
  match resp with
  | .error _ => ("neu", mkRat 1 2)
  | .ok content => parseSentimentContent content

/-! ## Translation, FinBERT and fusion (`src/summarize/sentiment.py`) -/

/-- `SentimentAnalyzer.translate_to_english`: the stripped service response,
or `""` when the call raises. -/
def translate_to_english (resp : Except Unit String) : String :=
  match resp with
  | .error _ => ""
  | .ok t => pyStripS t

/-- The `label_map` dict of `get_finbert_result`. -/
def finbertLabelMap : List (String × String) :=
  [("positive", "pos"), ("neutral", "neu"), ("negative", "neg")]

/-- `SentimentAnalyzer.get_finbert_result`: `("neu", 0.5)` when the pipeline
is unavailable, the text is empty, or classification raises; otherwise the
classifier's raw label is mapped through `label_map` (default `"neu"`) and its
confidence passed through. -/
def get_finbert_result (text : String) (outcome : Except Unit (String × ℚ)) : String × ℚ :=
  if text = "" then ("neu", mkRat 1 2)
  else
    match outcome with
    | .error _ => ("neu", mkRat 1 2)
    | .ok (l, c) => ((dictGet finbertLabelMap l).getD "neu", c)

/-- Modelled from the spec: `Config.WEIGHT_AI` is referenced by
`process_row_task` but `src/config.py` does not define it; §4.2 gives the
default primary fusion weight 0.6. -/
def WEIGHT_AI : ℚ := 6 / 10

/-- Modelled from the spec: `Config.WEIGHT_FINBERT` is referenced by
`process_row_task` but `src/config.py` does not define it; §4.2 gives the
default secondary fusion weight 0.4. -/
def WEIGHT_FINBERT : ℚ := 4 / 10

/-- Python `round(x, 2)` over exact rationals: nearest multiple of `1/100`
(Python rounds half to even; no half case is exercised in this development,
and Mathlib's `round` rounds half up). -/
def round2 (x : ℚ) : ℚ :=
  ((round (100 * x) : ℤ) : ℚ) / 100

/-- The per-article record produced by `process_row_task`. -/
structure RowResult where
  translation : String
  ai_label : String
  llm_confidence : ℚ
  llm_score : ℚ
  finbert_label : String
  finbert_confidence : ℚ
  finbert_score : ℚ
  final_score : ℚ
deriving DecidableEq

/-- `SentimentAnalyzer.process_row_task`: the two sub-tasks (primary LLM
classification; translation then FinBERT) joined, scored with
`calculate_score`, and fused with the configured weights, rounded to 2
decimals. -/
def process_row_task (llmResp : Except Unit String) (transResp : Except Unit String)
    (finbertOutcome : Except Unit (String × ℚ)) : RowResult :=
  let llm := generate_sentiment_label llmResp
  let translation := translate_to_english transResp
  let fin := get_finbert_result translation finbertOutcome
  let llm_score := calculate_score llm.1 llm.2
  let finbert_score := calculate_score fin.1 fin.2
  { translation := translation
    ai_label := llm.1
    llm_confidence := llm.2
    llm_score := llm_score
    finbert_label := fin.1
    finbert_confidence := fin.2
    finbert_score := finbert_score
    final_score := round2 (WEIGHT_AI * llm_score + WEIGHT_FINBERT * finbert_score) }

/-! ## `CompanyAnalyzer` company extraction (`src/summarize/company.py`) -/

/-- Remove every occurrence of the marker `-TW`, scanning left to right
without overlap, as Python `str.replace('-TW', '')`; `fuel` bounds the scan
and `length` always suffices because each step consumes input. -/
def removeTWAux : ℕ → List Char → List Char
  | 0, cs => cs
  | _ + 1, [] => []
  | fuel + 1, c :: cs =>
    if "-TW".data.isPrefixOf (c :: cs) then removeTWAux fuel (cs.drop 2)
    else c :: removeTWAux fuel cs

/-- Python `str.replace('-TW', '')`. -/
def removeTW (cs : List Char) : List Char :=
  removeTWAux cs.length cs

/-- `CompanyAnalyzer.normalize_company_name`: strip, then remove `、`, `,`,
full-width space, space, and the `-TW` suffix marker, in that order. -/
def normalize_company_name (cs : List Char) : List Char :=
  removeTW ((((pyStrip cs).filter (· ≠ '、')).filter (· ≠ ',')
    |>.filter (· ≠ '　')).filter (· ≠ ' '))

/-- The literal label of the mentioned-companies clause, `新聞提及公司`. -/
def mentionLabel : List Char := "新聞提及公司".data

/-- `re.search(r'新聞提及公司[：:](.*?)(?=\n|$)', text)`: the first position
where the label followed by a colon matches; the lazy group with the
end-of-line lookahead captures the remainder of that line. -/
def findClause : List Char → Option (List Char)
  | [] => none
  | c :: cs =>
    if mentionLabel.isPrefixOf (c :: cs) then
      match (c :: cs).drop mentionLabel.length with
      | d :: rest =>
        if d = '：' ∨ d = ':' then some (rest.takeWhile (· ≠ '\n'))
        else findClause cs
      | [] => findClause cs
    else findClause cs

/-- `re.findall(r'([^(]+)\((\d+)\)', company_text)` with `fuel` bounding the
scan (each step consumes at least one character, so `length + 1` suffices):
at each position, the greedy `[^(]+` runs up to the next `(` — backtracking
past the literals cannot succeed, so maximal munch is exact — then a nonempty
digit run and `)` complete a match; otherwise the scan advances one position. -/
def findMentionsAux : ℕ → List Char → List (List Char × List Char)
  | 0, _ => []
  | _ + 1, [] => []
  | fuel + 1, c :: cs =>
    if c = '(' then findMentionsAux fuel cs
    else
      let name := (c :: cs).takeWhile (· ≠ '(')
      match (c :: cs).drop name.length with
      | '(' :: r2 =>
        let ds := r2.takeWhile isAsciiDigit
        if ds.isEmpty then findMentionsAux fuel cs
        else
          match r2.drop ds.length with
          | ')' :: r4 => (name, ds) :: findMentionsAux fuel r4
          | _ => findMentionsAux fuel cs
      | _ => findMentionsAux fuel cs

/-- All `Name(Code)` groups of the clause, in scan order. -/
def findMentions (cs : List Char) : List (List Char × List Char) :=
  findMentionsAux (cs.length + 1) cs

/-- `CompanyAnalyzer.extract_companies_from_text`: with an empty reference
dict extraction is disabled; otherwise the first mentioned-companies clause is
parsed and each `Name(Code)` mention is kept — as `f"{name}({code})"` with the
normalized name — exactly when the normalized name is a key of the reference
dict and the parsed code equals that key's code. -/
def extract_companies_from_text (name2code : List (String × String)) (text : String) :
    List String :=
  if name2code.isEmpty then []
  else
    match findClause text.data with
    | none => []
    | some clause =>
      (findMentions clause).foldl
        (fun acc m =>
          let nm := String.mk (normalize_company_name m.1)
          match dictGet name2code nm with
          | some correctCode =>
            if String.mk m.2 = correctCode then acc ++ [nm ++ "(" ++ String.mk m.2 ++ ")"]
            else acc
          | none => acc)
        []

/-! ## `SummaryValidator.validate` and `CompanyAnalyzer.add_company_summary`
(`src/summarize/validator.py`, `src/summarize/company.py`) -/

/-- One per-company row of the grouped statistics table
(`calculate_company_sentiment_stats` output, before narration). -/
structure CompanyStat where
  company : String
  total_articles : ℕ
  avg_weighted_score : ℚ
  whole_news_content : String
deriving DecidableEq

/-- The service interactions of one `_generate_single_company_summary` call:
the narration request and the validation request (each may raise). -/
structure NarrationCalls where
  narrative : Except Unit String
  verdict : Except Unit String

/-- `SummaryValidator.validate`: short content (`not summary or
len(summary) < 5`) is invalid; a raised validation call returns `False`
(fail closed); otherwise the verdict passes iff the stripped, uppercased
response contains `YES`. -/
def validate (summary : String) (companyName : String) (verdictResp : Except Unit String) :
    Bool :=
  if summary.length < 5 then false
  else
    match verdictResp with
    | .error _ => false
    | .ok content => hasSub "YES".data (pyUpper (pyStripS content)).data

/-- `CompanyAnalyzer._generate_single_company_summary`: `none` when the
narration call raises or the validation gate does not pass, otherwise the
stripped narrative. -/
def generate_single_company_summary (companyName : String) (calls : NarrationCalls) :
    Option String :=
  match calls.narrative with
  | .error _ => none
  | .ok t =>
    let s := pyStripS t
    if validate s companyName calls.verdict then some s else none

/-- `CompanyAnalyzer.add_company_summary`: each row of the stats table (with
its pandas index) gets a narration attempt; rows whose result is `None` are
dropped (`dropna(subset=['company_summary'])`), the rest keep their summary. -/
def add_company_summary (stats : List CompanyStat) (svc : ℕ → NarrationCalls) :
    List (ℕ × CompanyStat × String) :=
  stats.enum.filterMap fun p =>
    (generate_single_company_summary p.2.company (svc p.1)).map fun s => (p.1, p.2, s)

/-! ## `TimeSeriesManager.update_daily_scores` (`src/summarize/time_series.py`) -/

/-- The persisted wide table: one column label per date, one row per company
holding one optional score per date column (`none` is a CSV null). -/
structure TSTable where
  dates : List String
  rows : List (String × List (Option ℚ))
deriving DecidableEq

/-- Every row holds exactly one value per date column. -/
def TSTable.wellFormed (t : TSTable) : Prop :=
  ∀ r ∈ t.rows, r.2.length = t.dates.length

instance (t : TSTable) : Decidable t.wellFormed :=
  inferInstanceAs (Decidable (∀ r ∈ t.rows, r.2.length = t.dates.length))

/-- Position of a date column among the column labels. -/
def dateIdx (dates : List String) (d : String) : ℕ :=
  dates.findIdx (· = d)

/-- The rows of the loaded history matching one company key, in table order
(`pd.merge(base_df, history_df, on='company', how='left')` pairs a base row
with every matching history row). -/
def matchRows (hist : TSTable) (c : String) : List (String × List (Option ℚ)) :=
  hist.rows.filter (·.1 = c)

/-- The contribution of one base company to the left join: its matching
history rows, or a single all-null row when the history has none. -/
def histBlock (hist : TSTable) (c : String) : List (String × List (Option ℚ)) :=
  match matchRows hist c with
  | [] => [(c, List.replicate hist.dates.length none)]
  | ms => ms

/-- The left join of the base company list with the history
(`pd.merge(base_df, history_df, on='company', how='left')`): every base
company in order, paired with its history rows, or with an all-null row when
the history has none. -/
def leftJoinRows (base : List String) (hist : TSTable) : List (String × List (Option ℚ)) :=
  base.flatMap (histBlock hist)

/-- The value the `date_str` column receives for a company:
`today_data.drop_duplicates(subset=['company'])` keeps the first record per
company, the resulting dict maps company to score, and `merged_df[date_str]`
holds the mapped score rounded to 2 decimals, null when unmapped. -/
def todayCol (today : List (String × ℚ)) (c : String) : Option ℚ :=
  (today.find? (·.1 = c)).map fun p => round2 p.2

/-- `TimeSeriesManager.update_daily_scores`, from the point where the base
company list, today's `(company, score)` records and the loaded history are in
hand: left-join the base with the history, then write (or overwrite, when the
date column already exists) the `dateStr` column from today's records. -/
def update_daily_scores (base : List String) (today : List (String × ℚ)) (hist : TSTable)
    (dateStr : String) : TSTable :=
  let joined := leftJoinRows base hist
  if dateStr ∈ hist.dates then
    { dates := hist.dates
      rows := joined.map fun r => (r.1, r.2.set (dateIdx hist.dates dateStr) (todayCol today r.1)) }
  else
    { dates := hist.dates ++ [dateStr]
      rows := joined.map fun r => (r.1, r.2 ++ [todayCol today r.1]) }

/-- The `dateStr`-column entry of a row of table `t`. -/
def TSTable.colEntry (t : TSTable) (dateStr : String) (r : String × List (Option ℚ)) :
    Option ℚ :=
  (r.2[dateIdx t.dates dateStr]?).getD none

/-- The `dateStr`-column value of the first row keyed by company `c`. -/
def TSTable.colValue (t : TSTable) (c : String) (dateStr : String) : Option ℚ :=
  match t.rows.find? (·.1 = c) with
  | some r => t.colEntry dateStr r
  | none => none

/-! ## Theorems -/

/-- `calculate_score` on the `pos` branch, with the term put over a common
denominator. -/
theorem calculate_score_pos (c : ℚ) : calculate_score "pos" c = 1 / 2 + (100 * c - 33) / 134 := by
  rw [calculate_score, if_pos rfl]
  ring

/-- `calculate_score` on the `neu` branch. -/
theorem calculate_score_neu (c : ℚ) : calculate_score "neu" c = 1 / 2 := by
  rw [calculate_score, if_neg (by decide), if_pos rfl]

/-- `calculate_score` on the `neg` branch. -/
theorem calculate_score_neg (c : ℚ) : calculate_score "neg" c = 1 / 2 - (100 * c - 33) / 134 := by
  rw [calculate_score, if_neg (by decide), if_neg (by decide)]
  ring

/-- C9: under exact rational arithmetic the score formula saturates at full
confidence and pins neutral: `score(pos, 1) = 1`, `score(neg, 1) = 0`, and
`score(neu, c) = 0.5` for every confidence. -/
theorem claim_C9 :
    calculate_score "pos" 1 = 1 ∧ calculate_score "neg" 1 = 0 ∧
      ∀ c : ℚ, calculate_score "neu" c = 1 / 2 := by
  refine ⟨?_, ?_, fun c => calculate_score_neu c⟩
  · rw [calculate_score_pos]; norm_num
  · rw [calculate_score_neg]; norm_num

/-- C1, counterexample: at confidence `0` — which lies in `[0,1]` — the claimed
ordering `score(pos, c) ≥ score(neu, c)` fails: `score(pos, 0) = 17/67 < 1/2 =
score(neu, 0)`. -/
theorem claim_C1_cex : ¬ (calculate_score "neu" 0 ≤ calculate_score "pos" 0) := by
  rw [calculate_score_neu, calculate_score_pos]
  norm_num

/-- C1, amended: the label ordering `score(pos, c) ≥ score(neu, c) ≥
score(neg, c)` holds for confidences `c ∈ [0.33, 1]` (for `c < 0.33` the
formula's term is negative and the ordering reverses), and `score(pos, ·)` is
monotonically non-decreasing on `[0, 1]`. -/
theorem claim_C1_amended :
    (∀ c : ℚ, mkRat 33 100 ≤ c → c ≤ 1 →
        calculate_score "neu" c ≤ calculate_score "pos" c ∧
        calculate_score "neg" c ≤ calculate_score "neu" c) ∧
    (∀ c₁ c₂ : ℚ, 0 ≤ c₁ → c₁ ≤ c₂ → c₂ ≤ 1 →
        calculate_score "pos" c₁ ≤ calculate_score "pos" c₂) := by
  constructor
  · intro c h1 h2
    rw [Rat.mkRat_eq_div] at h1
    norm_num at h1
    rw [calculate_score_neu, calculate_score_pos, calculate_score_neg]
    constructor <;> linarith
  · intro c₁ c₂ h1 h2 h3
    rw [calculate_score_pos, calculate_score_pos]
    linarith

/-- C1, witness: the amended theorem applied at confidence `1` and at the
pair `(0, 1)`. -/
theorem claim_C1_witness :
    (calculate_score "neu" 1 ≤ calculate_score "pos" 1 ∧
      calculate_score "neg" 1 ≤ calculate_score "neu" 1) ∧
    calculate_score "pos" 0 ≤ calculate_score "pos" 1 :=
  ⟨claim_C1_amended.1 1 (by decide) (by decide),
   claim_C1_amended.2 0 1 (by decide) (by decide) (by decide)⟩

/-- Association-list lookup followed by a default lands on the default or one
of the stored values. -/
theorem lookup_getD_mem (l : List (String × String)) (k d : String) :
    ((l.lookup k).getD d) ∈ d :: l.map Prod.snd := by
  induction l with
  | nil => simp [List.lookup]
  | cons p t ih =>
    rw [List.lookup]
    rcases p with ⟨a, b⟩
    by_cases h : k == a
    · simp [h]
    · simp only [h]
      rw [List.mem_cons] at ih
      rcases ih with h1 | h2
      · simp [h1]
      · simp only [List.map_cons, List.mem_cons]
        tauto

/-- `_normalize_label` always lands in the canonical label set. -/
theorem normalize_label_mem (l : String) :
    normalize_label l ∈ (["pos", "neu", "neg"] : List String) := by
  rw [normalize_label, dictGet]
  have h := lookup_getD_mem (sentimentLabelMap.reverse) (pyLower l) "neu"
  simp only [sentimentLabelMap, List.reverse_cons, List.reverse_nil, List.nil_append,
    List.cons_append, List.map_cons, List.map_nil, List.mem_cons, List.not_mem_nil,
    or_false] at h ⊢
  tauto

/-- `get_finbert_result` always lands in the canonical label set. -/
theorem finbert_label_mem (text : String) (outcome : Except Unit (String × ℚ)) :
    (get_finbert_result text outcome).1 ∈ (["pos", "neu", "neg"] : List String) := by
  rw [get_finbert_result.eq_def]
  split
  · simp
  · split
    · simp
    · rename_i l c
      simp only []
      rw [dictGet]
      have h := lookup_getD_mem (finbertLabelMap.reverse) l "neu"
      simp only [finbertLabelMap, List.reverse_cons, List.reverse_nil, List.nil_append,
        List.cons_append, List.map_cons, List.map_nil, List.mem_cons, List.not_mem_nil,
        or_false] at h ⊢
      tauto

/-- The regex fallback always lands in the canonical label set. -/
theorem regexFallback_label_mem (cs : List Char) :
    (regexFallback cs).1 ∈ (["pos", "neu", "neg"] : List String) := by
  rw [regexFallback]
  simp only []
  split
  · exact normalize_label_mem _
  · simp

/-- Every exit of the parsing cascade lands in the canonical label set. -/
theorem gen_label_mem (resp : Except Unit String) :
    (generate_sentiment_label resp).1 ∈ (["pos", "neu", "neg"] : List String) := by
  cases resp with
  | error e => simp [generate_sentiment_label]
  | ok content =>
    rw [generate_sentiment_label, parseSentimentContent]
    simp only []
    split
    · split
      · exact normalize_label_mem _
      · simp
    · exact regexFallback_label_mem _

/-- `calculate_score` on any label other than `pos` and `neu` takes the
`neg` branch. -/
theorem calculate_score_other (label : String) (c : ℚ) (h1 : label ≠ "pos")
    (h2 : label ≠ "neu") : calculate_score label c = 1 / 2 - (100 * c - 33) / 134 := by
  rw [calculate_score, if_neg h1, if_neg h2]
  ring

/-- For confidences in `[0, 1]` every branch of `calculate_score` stays in
`[0, 1]`. -/
theorem calculate_score_bounds (label : String) (c : ℚ) (h0 : 0 ≤ c) (h1 : c ≤ 1) :
    0 ≤ calculate_score label c ∧ calculate_score label c ≤ 1 := by
  by_cases hp : label = "pos"
  · subst hp
    rw [calculate_score_pos]
    constructor <;> linarith
  · by_cases hn : label = "neu"
    · subst hn
      rw [calculate_score_neu]
      constructor <;> linarith
    · rw [calculate_score_other label c hp hn]
      constructor <;> linarith

/-- Rounding to two decimals preserves the unit interval. -/
theorem round2_bounds {x : ℚ} (h0 : 0 ≤ x) (h1 : x ≤ 1) :
    0 ≤ round2 x ∧ round2 x ≤ 1 := by
  rw [round2]
  have hlo : (0 : ℤ) ≤ round (100 * x) := by
    rw [round_eq]
    have : (0 : ℤ) = ⌊(0 : ℚ) + 1 / 2⌋ := by norm_num
    rw [this]
    exact Int.floor_le_floor (by linarith)
  have hhi : round (100 * x) ≤ (100 : ℤ) := by
    rw [round_eq]
    have : (100 : ℤ) = ⌊(100 : ℚ) + 1 / 2⌋ := by norm_num
    rw [this]
    exact Int.floor_le_floor (by linarith)
  constructor
  · positivity
  · rw [div_le_one (by norm_num)]
    exact_mod_cast hhi

/-- The confidence reaching `calculate_score` on the secondary side is in
`[0, 1]` whenever the classifier outcome respects its `[0, 1]` contract. -/
theorem fin_conf_bounds (text : String) (fbOut : Except Unit (String × ℚ))
    (h3 : ∀ p, fbOut = Except.ok p → 0 ≤ p.2 ∧ p.2 ≤ 1) :
    0 ≤ (get_finbert_result text fbOut).2 ∧ (get_finbert_result text fbOut).2 ≤ 1 := by
  cases fbOut with
  | error e =>
    rw [get_finbert_result.eq_def]
    split
    · exact ⟨(by decide : (0:ℚ) ≤ mkRat 1 2), (by decide : (mkRat 1 2 : ℚ) ≤ 1)⟩
    · exact ⟨(by decide : (0:ℚ) ≤ mkRat 1 2), (by decide : (mkRat 1 2 : ℚ) ≤ 1)⟩
  | ok p =>
    rcases p with ⟨l, c⟩
    have hc := h3 (l, c) rfl
    rw [get_finbert_result.eq_def]
    split
    · exact ⟨(by decide : (0:ℚ) ≤ mkRat 1 2), (by decide : (mkRat 1 2 : ℚ) ≤ 1)⟩
    · simpa using hc

/-- C2, counterexample: the well-formed service response
`{"label": "pos", "confidence": 1.5}` passes the cascade unclamped (the code
never restricts the reported confidence to `[0,1]`), and with the secondary
classifier at its `neutral`/`0.5` default the fused record has
`final_score = 1.02 ∉ [0,1]`. -/
theorem claim_C2_cex :
    (process_row_task (Except.ok "\x7b\"label\": \"pos\", \"confidence\": 1.5\x7d")
        (Except.ok "good") (Except.ok ("neutral", mkRat 1 2))).final_score = 51 / 50 ∧
    ¬ ((51 : ℚ) / 50 ≤ 1) := by
  constructor
  · with_unfolding_all rfl
  · norm_num

/-- C2, amended: provided the confidence parsed from the primary service
response lies in `[0,1]` (the code does not clamp it) and the secondary
classifier honours its `[0,1]` confidence contract, every record produced by
`process_row_task` has `final_score ∈ [0,1]`; the label invariant
`primary, secondary ∈ {pos, neu, neg}` holds unconditionally. -/
theorem claim_C2_amended (llmResp transResp : Except Unit String)
    (fbOut : Except Unit (String × ℚ))
    (h1 : 0 ≤ (generate_sentiment_label llmResp).2)
    (h2 : (generate_sentiment_label llmResp).2 ≤ 1)
    (h3 : ∀ p, fbOut = Except.ok p → 0 ≤ p.2 ∧ p.2 ≤ 1) :
    (0 ≤ (process_row_task llmResp transResp fbOut).final_score ∧
      (process_row_task llmResp transResp fbOut).final_score ≤ 1) ∧
    (process_row_task llmResp transResp fbOut).ai_label ∈ (["pos", "neu", "neg"] : List String) ∧
    (process_row_task llmResp transResp fbOut).finbert_label ∈
      (["pos", "neu", "neg"] : List String) := by
  refine ⟨?_, gen_label_mem llmResp, finbert_label_mem _ fbOut⟩
  have hllm := calculate_score_bounds (generate_sentiment_label llmResp).1
    (generate_sentiment_label llmResp).2 h1 h2
  have hfinc := fin_conf_bounds (translate_to_english transResp) fbOut h3
  have hfin := calculate_score_bounds (get_finbert_result (translate_to_english transResp) fbOut).1
    (get_finbert_result (translate_to_english transResp) fbOut).2 hfinc.1 hfinc.2
  show 0 ≤ round2 _ ∧ round2 _ ≤ 1
  apply round2_bounds
  · rw [WEIGHT_AI, WEIGHT_FINBERT]
    nlinarith [hllm.1, hllm.2, hfin.1, hfin.2]
  · rw [WEIGHT_AI, WEIGHT_FINBERT]
    nlinarith [hllm.1, hllm.2, hfin.1, hfin.2]

/-- C2, witness: the amended theorem applied to the all-defaults run (every
service call failing), whose hypotheses hold by computation. -/
theorem claim_C2_witness :
    (0 ≤ (process_row_task (Except.error ()) (Except.error ()) (Except.error ())).final_score ∧
      (process_row_task (Except.error ()) (Except.error ()) (Except.error ())).final_score ≤ 1) ∧
    (process_row_task (Except.error ()) (Except.error ()) (Except.error ())).ai_label ∈
      (["pos", "neu", "neg"] : List String) ∧
    (process_row_task (Except.error ()) (Except.error ()) (Except.error ())).finbert_label ∈
      (["pos", "neu", "neg"] : List String) :=
  claim_C2_amended _ _ _ (by decide) (by decide) (fun p h => nomatch h)

/-- The acceptance rule applied to one parsed `Name(Code)` mention inside the
`extract_companies_from_text` loop, as an `Option`-valued step: the normalized
name must be a key of the reference dict and the parsed code must equal that
key's code, in which case the canonical `Name(Code)` key is produced. -/
def acceptMention (name2code : List (String × String)) (m : List Char × List Char) :
    Option String :=
  match dictGet name2code (String.mk (normalize_company_name m.1)) with
  | some correctCode =>
    if String.mk m.2 = correctCode then
      some (String.mk (normalize_company_name m.1) ++ "(" ++ String.mk m.2 ++ ")")
    else none
  | none => none

/-- A fold that appends an element per `some` step is an accumulator prefix
followed by a `filterMap`. -/
theorem foldl_acc_filterMap {α β : Type} (f : α → Option β) (l : List α) :
    ∀ acc : List β,
      l.foldl (fun a x => (f x).elim a (fun b => a ++ [b])) acc
        = acc ++ l.filterMap f := by
  induction l with
  | nil => intro acc; simp
  | cons x t ih =>
    intro acc
    rw [List.foldl_cons, List.filterMap_cons]
    cases hf : f x with
    | none => simp [hf, ih]
    | some b =>
      have h2 : (some b).elim acc (fun c => acc ++ [c]) = acc ++ [b] := rfl
      rw [h2, ih (acc ++ [b])]
      simp

/-- `extract_companies_from_text` keeps exactly the accepted mentions of the
first clause, in scan order. -/
theorem extract_eq_filterMap (tbl : List (String × String)) (text : String) :
    extract_companies_from_text tbl text =
      if tbl.isEmpty then []
      else
        match findClause text.data with
        | none => []
        | some clause => (findMentions clause).filterMap (acceptMention tbl) := by
  rw [extract_companies_from_text]
  split
  · rfl
  · cases hc : findClause text.data with
    | none => simp
    | some clause =>
      simp only []
      have hstep : (fun (acc : List String) (m : List Char × List Char) =>
          match dictGet tbl (String.mk (normalize_company_name m.1)) with
          | some correctCode =>
            if String.mk m.2 = correctCode then
              acc ++ [String.mk (normalize_company_name m.1) ++ "(" ++ String.mk m.2 ++ ")"]
            else acc
          | none => acc) =
          (fun (a : List String) (x : List Char × List Char) =>
            (acceptMention tbl x).elim a (fun b => a ++ [b])) := by
        funext a x
        rw [acceptMention]
        cases hd : dictGet tbl (String.mk (normalize_company_name x.1)) with
        | none => simp
        | some c =>
          simp only []
          split <;> simp
      rw [hstep, foldl_acc_filterMap (acceptMention tbl) (findMentions clause) [],
        List.nil_append]

/-- Characterization of an accepted mention. -/
theorem acceptMention_eq_some (tbl : List (String × String)) (m : List Char × List Char)
    (key : String) :
    acceptMention tbl m = some key ↔
      dictGet tbl (String.mk (normalize_company_name m.1)) = some (String.mk m.2) ∧
      key = String.mk (normalize_company_name m.1) ++ "(" ++ String.mk m.2 ++ ")" := by
  rw [acceptMention]
  cases hd : dictGet tbl (String.mk (normalize_company_name m.1)) with
  | none => simp
  | some c =>
    by_cases heq : String.mk m.2 = c
    · subst heq
      simp [eq_comm]
    · simp only [Option.some.injEq]
      rw [if_neg heq]
      constructor
      · intro h
        exact nomatch h
      · rintro ⟨h1, -⟩
        exact absurd h1.symm heq

/-- C5: a parsed mention `Name(Code)` contributes a company key if and only
if the normalized name exists in the reference table and the parsed code
exactly equals the table's code for that name (other mentions are silently
dropped without affecting the rest); in particular the clause
`新聞提及公司:Alpha(1111)、Beta(2222)` against the table
`{Alpha→1111, Beta→9999}` yields exactly `["Alpha(1111)"]`. -/
theorem claim_C5 :
    (∀ (tbl : List (String × String)) (text : String) (key : String),
      key ∈ extract_companies_from_text tbl text ↔
        (¬ tbl.isEmpty ∧ ∃ clause, findClause text.data = some clause ∧
          ∃ nm cd, (nm, cd) ∈ findMentions clause ∧
            dictGet tbl (String.mk (normalize_company_name nm)) = some (String.mk cd) ∧
            key = String.mk (normalize_company_name nm) ++ "(" ++ String.mk cd ++ ")")) ∧
    extract_companies_from_text [("Alpha", "1111"), ("Beta", "9999")]
      "新聞提及公司:Alpha(1111)、Beta(2222)" = ["Alpha(1111)"] := by
  constructor
  · intro tbl text key
    rw [extract_eq_filterMap]
    split
    · rename_i hemp
      simp [hemp]
    · rename_i hemp
      cases hc : findClause text.data with
      | none =>
        simp only [List.not_mem_nil, false_iff, not_and]
        intro _
        rintro ⟨clause, hcl, _⟩
        exact nomatch hcl
      | some clause =>
        rw [List.mem_filterMap]
        constructor
        · rintro ⟨m, hm, hacc⟩
          rw [acceptMention_eq_some] at hacc
          exact ⟨hemp, clause, rfl, m.1, m.2, hm, hacc.1, hacc.2⟩
        · rintro ⟨-, clause2, hcl2, nm, cd, hmem, hd, hk⟩
          injection hcl2 with h2
          subst h2
          exact ⟨(nm, cd), hmem, (acceptMention_eq_some tbl (nm, cd) key).2 ⟨hd, hk⟩⟩
  · decide

/-- A raised validation call fails closed. -/
theorem validate_error_false (s companyName : String) (e : Unit) :
    validate s companyName (Except.error e) = false := by
  rw [validate]
  split <;> rfl

/-- A verdict without `YES` does not pass. -/
theorem validate_noYes_false (s companyName v : String)
    (hy : hasSub "YES".data (pyUpper (pyStripS v)).data = false) :
    validate s companyName (Except.ok v) = false := by
  rw [validate]
  split
  · rfl
  · exact hy

/-- C8: when the narration of a record fails the validation gate — the
verdict call raises, or its response carries no `YES` — the record's summary
is `none` and no row for that record's index survives into the
`add_company_summary` output; a record whose narration passes is retained
with its summary. -/
theorem claim_C8 (stats : List CompanyStat) (svc : ℕ → NarrationCalls) (i : ℕ)
    (h : i < stats.length) :
    (∀ e, (svc i).verdict = Except.error e →
        generate_single_company_summary stats[i].company (svc i) = none) ∧
    (∀ v, (svc i).verdict = Except.ok v →
        hasSub "YES".data (pyUpper (pyStripS v)).data = false →
        generate_single_company_summary stats[i].company (svc i) = none) ∧
    (generate_single_company_summary stats[i].company (svc i) = none →
        ∀ x ∈ add_company_summary stats svc, x.1 ≠ i) ∧
    (∀ s, generate_single_company_summary stats[i].company (svc i) = some s →
        (i, stats[i], s) ∈ add_company_summary stats svc) := by
  refine ⟨?_, ?_, ?_, ?_⟩
  · intro e he
    rw [generate_single_company_summary.eq_def]
    cases hn : (svc i).narrative with
    | error u => rfl
    | ok t =>
      simp only []
      rw [he, validate_error_false, if_neg]
      exact Bool.false_ne_true
  · intro v hv hy
    rw [generate_single_company_summary.eq_def]
    cases hn : (svc i).narrative with
    | error u => rfl
    | ok t =>
      simp only []
      rw [hv, validate_noYes_false _ _ _ hy, if_neg]
      exact Bool.false_ne_true
  · intro hnone x hx
    rw [add_company_summary, List.mem_filterMap] at hx
    obtain ⟨p, hp, hf⟩ := hx
    rcases p with ⟨j, st⟩
    intro hxi
    cases hg : generate_single_company_summary st.company (svc j) with
    | none => rw [hg] at hf; exact nomatch hf
    | some s =>
      rw [hg] at hf
      injection hf with hfx
      have hji : j = i := by rw [← hxi, ← hfx]
      subst hji
      rw [List.mk_mem_enum_iff_getElem?] at hp
      rw [List.getElem?_eq_getElem h] at hp
      injection hp with hst
      rw [← hst] at hg
      rw [hnone] at hg
      exact nomatch hg
  · intro s hs
    rw [add_company_summary, List.mem_filterMap]
    refine ⟨(i, stats[i]), ?_, ?_⟩
    · rw [List.mk_mem_enum_iff_getElem?, List.getElem?_eq_getElem h]
    · rw [hs]
      rfl

/-- C8, witness: the theorem applied to a one-record table whose validation
call raises; the hypotheses hold by computation. -/
theorem claim_C8_witness :
    (∀ e, ((fun _ : ℕ => NarrationCalls.mk (Except.ok "narrative text") (Except.error ())) 0).verdict
          = Except.error e →
        generate_single_company_summary (CompanyStat.mk "TestCo" 1 1 "w").company
          ((fun _ : ℕ => NarrationCalls.mk (Except.ok "narrative text") (Except.error ())) 0) = none) ∧
    (∀ v, ((fun _ : ℕ => NarrationCalls.mk (Except.ok "narrative text") (Except.error ())) 0).verdict
          = Except.ok v →
        hasSub "YES".data (pyUpper (pyStripS v)).data = false →
        generate_single_company_summary (CompanyStat.mk "TestCo" 1 1 "w").company
          ((fun _ : ℕ => NarrationCalls.mk (Except.ok "narrative text") (Except.error ())) 0) = none) ∧
    (generate_single_company_summary (CompanyStat.mk "TestCo" 1 1 "w").company
          ((fun _ : ℕ => NarrationCalls.mk (Except.ok "narrative text") (Except.error ())) 0) = none →
        ∀ x ∈ add_company_summary [CompanyStat.mk "TestCo" 1 1 "w"]
            (fun _ : ℕ => NarrationCalls.mk (Except.ok "narrative text") (Except.error ())),
          x.1 ≠ 0) ∧
    (∀ s, generate_single_company_summary (CompanyStat.mk "TestCo" 1 1 "w").company
          ((fun _ : ℕ => NarrationCalls.mk (Except.ok "narrative text") (Except.error ())) 0) = some s →
        (0, CompanyStat.mk "TestCo" 1 1 "w", s) ∈
          add_company_summary [CompanyStat.mk "TestCo" 1 1 "w"]
            (fun _ : ℕ => NarrationCalls.mk (Except.ok "narrative text") (Except.error ()))) :=
  claim_C8 [CompanyStat.mk "TestCo" 1 1 "w"]
    (fun _ : ℕ => NarrationCalls.mk (Except.ok "narrative text") (Except.error ())) 0 (by decide)

/-- Every row of a company's join block is keyed by that company. -/
theorem histBlock_key (hist : TSTable) (c : String) (r : String × List (Option ℚ))
    (hr : r ∈ histBlock hist c) : r.1 = c := by
  rw [histBlock] at hr
  rcases hms : matchRows hist c with _ | ⟨m, ms⟩
  · rw [hms] at hr
    simp only [List.mem_singleton] at hr
    rw [hr]
  · rw [hms] at hr
    have : r ∈ matchRows hist c := by rw [hms]; exact hr
    rw [matchRows] at this
    rw [List.mem_filter] at this
    exact of_decide_eq_true this.2

/-- A join block is never empty (an unmatched company gets an all-null row). -/
theorem histBlock_ne_nil (hist : TSTable) (c : String) : histBlock hist c ≠ [] := by
  rw [histBlock]
  cases hms : matchRows hist c with
  | nil => simp
  | cons m ms => simp

/-- In a well-formed history every join-block row spans all date columns. -/
theorem histBlock_length (hist : TSTable) (hw : hist.wellFormed) (c : String)
    (r : String × List (Option ℚ)) (hr : r ∈ histBlock hist c) :
    r.2.length = hist.dates.length := by
  rw [histBlock] at hr
  cases hms : matchRows hist c with
  | nil =>
    rw [hms] at hr
    simp only [List.mem_singleton] at hr
    rw [hr]
    exact List.length_replicate _ _
  | cons m ms =>
    rw [hms] at hr
    have : r ∈ hist.rows := by
      have h2 : r ∈ matchRows hist c := by rw [hms]; exact hr
      rw [matchRows] at h2
      exact (List.mem_filter.mp h2).1
    exact hw r this

/-- `find?` returns the head of the filtered list. -/
theorem find?_eq_head?_filter {α : Type} (p : α → Bool) (l : List α) :
    l.find? p = (l.filter p).head? := by
  induction l with
  | nil => rfl
  | cons a t ih =>
    rw [List.find?_cons, List.filter_cons]
    cases hp : p a with
    | true => simp
    | false => simpa using ih

/-- Searching a keyed block concatenation for a present key finds the head of
that key's block. -/
theorem find?_flatMap_head {β : Type} (base : List String) (g : String → List β)
    (key : β → String) (c : String)
    (hkey : ∀ c' r, r ∈ g c' → key r = c') (hne : ∀ c', g c' ≠ [])
    (hc : c ∈ base) :
    (base.flatMap g).find? (fun r => key r = c) = (g c).head? := by
  induction base with
  | nil => exact absurd hc (List.not_mem_nil c)
  | cons a bs ih =>
    rw [List.flatMap_cons, List.find?_append]
    by_cases hac : a = c
    · subst hac
      have : (g a).find? (fun r => key r = a) = (g a).head? := by
        cases hga : g a with
        | nil => rfl
        | cons r rs =>
          rw [List.find?_cons]
          have : key r = a := hkey a r (by rw [hga]; exact List.mem_cons_self r rs)
          simp [this]
      rw [this]
      cases hga : g a with
      | nil => exact absurd hga (hne a)
      | cons r rs => simp
    · have h1 : (g a).find? (fun r => key r = c) = none := by
        rw [List.find?_eq_none]
        intro r hr
        rw [hkey a r hr]
        simp [hac]
      rw [h1]
      simp only [Option.none_or]
      rcases List.mem_cons.mp hc with h | h
      · exact absurd h.symm hac
      · exact ih h

/-- A freshly appended date column sits at the old column count. -/
theorem dateIdx_append_self (dates : List String) (d : String) (hd : d ∉ dates) :
    dateIdx (dates ++ [d]) d = dates.length := by
  induction dates with
  | nil => simp [dateIdx, List.findIdx_cons]
  | cons a t ih =>
    have hne : a ≠ d := by
      intro h
      exact hd (by rw [← h]; exact List.mem_cons_self a t)
    rw [List.cons_append]
    rw [dateIdx, List.findIdx_cons]
    have : (a = d) = False := by simp [hne]
    simp only [decide_eq_true_eq] at *
    rw [show (decide (a = d)) = false by simp [hne]]
    simp only [cond_false, List.length_cons]
    have ht : d ∉ t := fun hmem => hd (List.mem_cons_of_mem a hmem)
    rw [← dateIdx, ih ht]

/-- An existing date column's index is in range. -/
theorem dateIdx_lt_length (dates : List String) (d : String) (hd : d ∈ dates) :
    dateIdx dates d < dates.length :=
  List.findIdx_lt_length_of_exists ⟨d, hd, by simp⟩

/-- The merge keeps the column labels, appending the new date only when it was
absent. -/
theorem update_dates (base : List String) (today : List (String × ℚ)) (hist : TSTable)
    (d : String) :
    (update_daily_scores base today hist d).dates =
      if d ∈ hist.dates then hist.dates else hist.dates ++ [d] := by
  rw [update_daily_scores]
  split <;> simp_all

/-- Row shape of the merge when the date column already exists (overwrite in
place). -/
theorem update_rows_map (base : List String) (today : List (String × ℚ)) (hist : TSTable)
    (d : String) (hd : d ∈ hist.dates) :
    (update_daily_scores base today hist d).rows =
      (leftJoinRows base hist).map fun r =>
        (r.1, r.2.set (dateIdx hist.dates d) (todayCol today r.1)) := by
  rw [update_daily_scores]
  rw [if_pos hd]

/-- Row shape of the merge when the date column is new (append at the end). -/
theorem update_rows_append (base : List String) (today : List (String × ℚ)) (hist : TSTable)
    (d : String) (hd : d ∉ hist.dates) :
    (update_daily_scores base today hist d).rows =
      (leftJoinRows base hist).map fun r => (r.1, r.2 ++ [todayCol today r.1]) := by
  rw [update_daily_scores]
  rw [if_neg hd]

/-- A join block always has a first row. -/
theorem histBlock_head (hist : TSTable) (c : String) :
    ∃ r0, (histBlock hist c).head? = some r0 ∧ r0 ∈ histBlock hist c := by
  cases hb : histBlock hist c with
  | nil => exact absurd hb (histBlock_ne_nil hist c)
  | cons r rs => exact ⟨r, rfl, List.mem_cons_self r rs⟩

/-- The first merged row keyed by a base company is the image of its join
block's head. -/
theorem update_find? (base : List String) (today : List (String × ℚ)) (hist : TSTable)
    (d : String) (c : String) (hc : c ∈ base)
    (f : String × List (Option ℚ) → String × List (Option ℚ))
    (hf : ∀ r, (f r).1 = r.1)
    (hrows : (update_daily_scores base today hist d).rows = (leftJoinRows base hist).map f) :
    ∃ r0, (histBlock hist c).head? = some r0 ∧ r0 ∈ histBlock hist c ∧
      (update_daily_scores base today hist d).rows.find? (fun r => r.1 = c) = some (f r0) := by
  obtain ⟨r0, hh, hmem⟩ := histBlock_head hist c
  refine ⟨r0, hh, hmem, ?_⟩
  rw [hrows, List.find?_map]
  have hp : ((fun r : String × List (Option ℚ) => decide (r.1 = c)) ∘ f) =
      (fun r => decide (r.1 = c)) := by
    funext r
    simp [hf r]
  rw [leftJoinRows]
  rw [show (fun r : String × List (Option ℚ) => decide (r.1 = c)) ∘ f =
      (fun r : String × List (Option ℚ) => decide (r.1 = c)) from hp]
  rw [find?_flatMap_head base (histBlock hist) Prod.fst c
    (fun c' r hr => histBlock_key hist c' r hr) (histBlock_ne_nil hist) hc]
  rw [hh]
  rfl

/-- The merged `dateStr` column holds exactly the (deduplicated, rounded)
today-mapping value for every base company. -/
theorem colValue_update (base : List String) (today : List (String × ℚ)) (hist : TSTable)
    (d : String) (c : String) (hc : c ∈ base) (hw : hist.wellFormed) :
    (update_daily_scores base today hist d).colValue c d = todayCol today c := by
  by_cases hd : d ∈ hist.dates
  · obtain ⟨r0, hh, hmem, hfind⟩ := update_find? base today hist d c hc
      (fun r => (r.1, r.2.set (dateIdx hist.dates d) (todayCol today r.1)))
      (fun r => rfl) (update_rows_map base today hist d hd)
    rw [TSTable.colValue, hfind]
    simp only [TSTable.colEntry]
    have hdates : (update_daily_scores base today hist d).dates = hist.dates := by
      rw [update_dates, if_pos hd]
    rw [hdates]
    have hkey : r0.1 = c := histBlock_key hist c r0 hmem
    have hlen : r0.2.length = hist.dates.length := histBlock_length hist hw c r0 hmem
    have hlt : dateIdx hist.dates d < r0.2.length := by
      rw [hlen]
      exact dateIdx_lt_length hist.dates d hd
    rw [List.getElem?_set_self hlt]
    rw [hkey]
    rfl
  · obtain ⟨r0, hh, hmem, hfind⟩ := update_find? base today hist d c hc
      (fun r => (r.1, r.2 ++ [todayCol today r.1]))
      (fun r => rfl) (update_rows_append base today hist d hd)
    rw [TSTable.colValue, hfind]
    simp only [TSTable.colEntry]
    have hdates : (update_daily_scores base today hist d).dates = hist.dates ++ [d] := by
      rw [update_dates, if_neg hd]
    rw [hdates]
    have hkey : r0.1 = c := histBlock_key hist c r0 hmem
    have hlen : r0.2.length = hist.dates.length := histBlock_length hist hw c r0 hmem
    rw [dateIdx_append_self hist.dates d hd]
    rw [← hlen, List.getElem?_concat_length]
    rw [hkey]
    rfl

/-- With duplicates present, the column mapping keeps the first record's
score (`drop_duplicates` keeps the first occurrence). -/
theorem todayCol_first (l1 l2 : List (String × ℚ)) (c : String) (s : ℚ)
    (hfirst : ∀ p ∈ l1, p.1 ≠ c) :
    todayCol (l1 ++ (c, s) :: l2) c = some (round2 s) := by
  rw [todayCol, List.find?_append]
  have h1 : l1.find? (fun p => p.1 = c) = none :=
    List.find?_eq_none.mpr (fun p hp => by simp [hfirst p hp])
  rw [h1]
  simp only [Option.none_or]
  rw [List.find?_cons]
  simp

/-- C3, counterexample: with today-records `[(A(1), 0.2), (A(1), 0.8)]` the
merged date column holds `0.2` — the first record's score — not the later
record's `0.8` as the claim states, so later duplicates do not overwrite
earlier ones. -/
theorem claim_C3_cex :
    (update_daily_scores ["A(1)"] [("A(1)", mkRat 2 10), ("A(1)", mkRat 8 10)]
        (TSTable.mk [] [("A(1)", [])]) "20240101").colValue "A(1)" "20240101"
      = some (mkRat 1 5) ∧
    round2 (mkRat 8 10) = mkRat 4 5 ∧ (mkRat 1 5 : ℚ) ≠ mkRat 4 5 := by
  refine ⟨?_, ?_, by decide⟩
  · with_unfolding_all rfl
  · with_unfolding_all rfl

/-- C3, amended: when today's records contain duplicate company keys, the
mapping used for the date column keeps the FIRST record's score per key
(`drop_duplicates(subset=['company'])` keeps first occurrences before the
dict is built), and the merge is a total function — it does not fail. -/
theorem claim_C3_amended (base : List String) (hist : TSTable) (d : String)
    (l1 l2 : List (String × ℚ)) (c : String) (s : ℚ)
    (hc : c ∈ base) (hw : hist.wellFormed) (hfirst : ∀ p ∈ l1, p.1 ≠ c) :
    (update_daily_scores base (l1 ++ (c, s) :: l2) hist d).colValue c d
      = some (round2 s) := by
  rw [colValue_update base (l1 ++ (c, s) :: l2) hist d c hc hw]
  exact todayCol_first l1 l2 c s hfirst

/-- C3, witness: the amended theorem applied to a record list with a leading
other-company record and a duplicated key. -/
theorem claim_C3_witness :
    (update_daily_scores ["A(1)"] ([("B(2)", mkRat 9 10)] ++ ("A(1)", mkRat 2 10) ::
        [("A(1)", mkRat 8 10)]) (TSTable.mk [] [("A(1)", [])]) "20240101").colValue
      "A(1)" "20240101" = some (round2 (mkRat 2 10)) :=
  claim_C3_amended ["A(1)"] (TSTable.mk [] [("A(1)", [])]) "20240101"
    [("B(2)", mkRat 9 10)] [("A(1)", mkRat 8 10)] "A(1)" (mkRat 2 10)
    (by decide) (by decide) (by decide)

/-- C10: every row of the merged table is keyed by a reference-table company;
a company present in the persisted history but absent from the reference
table leaves no row in the merged table (its history is discarded by the
base-driven left join). -/
theorem claim_C10 (base : List String) (hist : TSTable) (today : List (String × ℚ))
    (d : String) :
    (∀ r ∈ (update_daily_scores base today hist d).rows, r.1 ∈ base) ∧
    (∀ c, c ∈ hist.rows.map Prod.fst → c ∉ base →
      ∀ r ∈ (update_daily_scores base today hist d).rows, r.1 ≠ c) := by
  have hkeys : ∀ r ∈ (update_daily_scores base today hist d).rows, r.1 ∈ base := by
    intro r hr
    rw [update_daily_scores] at hr
    have hj : ∃ r0 ∈ leftJoinRows base hist, r.1 = r0.1 := by
      split at hr <;>
      · simp only [List.mem_map] at hr
        obtain ⟨r0, hr0, rfl⟩ := hr
        exact ⟨r0, hr0, rfl⟩
    obtain ⟨r0, hr0, hkey⟩ := hj
    rw [leftJoinRows, List.mem_flatMap] at hr0
    obtain ⟨c, hcb, hrb⟩ := hr0
    rw [hkey, histBlock_key hist c r0 hrb]
    exact hcb
  refine ⟨hkeys, ?_⟩
  intro c _ hnb r hr hrc
  exact hnb (hrc ▸ hkeys r hr)

/-- C10, witness: the theorem applied to a history holding company `B(2)`
which the reference table no longer lists. -/
theorem claim_C10_witness :
    (("A(1)", ([some 1, none] : List (Option ℚ))) : String × List (Option ℚ)).1 ≠ "B(2)" :=
  (claim_C10 ["A(1)"] (TSTable.mk ["d0"] [("A(1)", [some 1]), ("B(2)", [some 0])]) [] "d1").2
    "B(2)" (by decide) (by decide) ("A(1)", [some 1, none]) (by decide)

/-- With pairwise-distinct keys, filtering by one key yields at most one row. -/
theorem filter_key_short {β : Type} (rows : List (String × β)) (c : String)
    (h : (rows.map Prod.fst).Nodup) :
    rows.filter (fun r => r.1 = c) = [] ∨ ∃ r, rows.filter (fun r => r.1 = c) = [r] := by
  induction rows with
  | nil => left; rfl
  | cons a t ih =>
    rw [List.map_cons, List.nodup_cons] at h
    rw [List.filter_cons]
    by_cases hac : a.1 = c
    · right
      refine ⟨a, ?_⟩
      rw [if_pos (by simp [hac])]
      have ht : t.filter (fun r => r.1 = c) = [] := by
        rw [List.filter_eq_nil_iff]
        intro r hr
        simp only [decide_eq_true_eq]
        intro hrc
        exact h.1 (by rw [hac, ← hrc]; exact List.mem_map_of_mem Prod.fst hr)
      rw [ht]
    · rw [if_neg (by simp [hac])]
      exact ih h.2

/-- Under unique history keys, each base company contributes exactly this row. -/
def blockRow (hist : TSTable) (c : String) : String × List (Option ℚ) :=
  match matchRows hist c with
  | [] => (c, List.replicate hist.dates.length none)
  | r :: _ => r

/-- Under unique history keys every join block is the singleton `blockRow`. -/
theorem histBlock_eq_single (hist : TSTable) (hnd : (hist.rows.map Prod.fst).Nodup)
    (c : String) : histBlock hist c = [blockRow hist c] := by
  rw [histBlock, blockRow]
  rcases filter_key_short hist.rows c hnd with h | ⟨r, h⟩
  · rw [matchRows] at *
    rw [h]
  · rw [matchRows] at *
    rw [h]

/-- Under unique history keys the left join is one row per base company. -/
theorem leftJoin_eq_map (base : List String) (hist : TSTable)
    (hnd : (hist.rows.map Prod.fst).Nodup) :
    leftJoinRows base hist = base.map (blockRow hist) := by
  rw [leftJoinRows]
  induction base with
  | nil => rfl
  | cons a bs ih =>
    rw [List.flatMap_cons, List.map_cons, histBlock_eq_single hist hnd a, ih]
    rfl

/-- The single join row of a company is keyed by it. -/
theorem blockRow_key (hist : TSTable) (hnd : (hist.rows.map Prod.fst).Nodup) (c : String) :
    (blockRow hist c).1 = c := by
  apply histBlock_key hist c
  rw [histBlock_eq_single hist hnd c]
  exact List.mem_cons_self _ _

/-- In a well-formed history every joined row spans all date columns. -/
theorem joined_row_length (base : List String) (hist : TSTable) (hw : hist.wellFormed) :
    ∀ r ∈ leftJoinRows base hist, r.2.length = hist.dates.length := by
  intro r hr
  rw [leftJoinRows, List.mem_flatMap] at hr
  obtain ⟨c, _, hrb⟩ := hr
  exact histBlock_length hist hw c r hrb

/-- Every merged row's `dateStr`-column entry is its company's today-mapping
value. -/
theorem update_entry_all (base : List String) (today : List (String × ℚ)) (hist : TSTable)
    (d : String) (hw : hist.wellFormed) :
    ∀ r ∈ leftJoinRows base hist,
      (update_daily_scores base today hist d).colEntry d
          (if d ∈ hist.dates then (r.1, r.2.set (dateIdx hist.dates d) (todayCol today r.1))
           else (r.1, r.2 ++ [todayCol today r.1]))
        = todayCol today r.1 := by
  intro r hr
  have hlen := joined_row_length base hist hw r hr
  by_cases hd : d ∈ hist.dates
  · rw [if_pos hd]
    simp only [TSTable.colEntry, update_dates, if_pos hd]
    rw [List.getElem?_set_self (by rw [hlen]; exact dateIdx_lt_length hist.dates d hd)]
    rfl
  · rw [if_neg hd]
    simp only [TSTable.colEntry, update_dates, if_neg hd]
    rw [dateIdx_append_self hist.dates d hd, ← hlen, List.getElem?_concat_length]
    rfl

/-- The column mapping is null exactly for companies without a today record. -/
theorem todayCol_eq_none (today : List (String × ℚ)) (c : String) :
    (todayCol today c = none) ↔ (today.find? (fun p => p.1 = c)).isSome = false := by
  rw [todayCol]
  cases today.find? (fun p => p.1 = c) <;> simp

/-- C7: for a reference table with `N` companies (unique history keys,
well-formed history), the merged table has exactly `N` rows; the date column
of each company holds the first matching today-score rounded to 2 decimals,
and the number of null entries in that column is `N − M`, where `M` counts
the base companies covered by today's records. -/
theorem claim_C7 (base : List String) (today : List (String × ℚ)) (hist : TSTable)
    (d : String) (hnd : (hist.rows.map Prod.fst).Nodup) (hw : hist.wellFormed) :
    (update_daily_scores base today hist d).rows.length = base.length ∧
    (∀ c ∈ base, (update_daily_scores base today hist d).colValue c d =
      (today.find? (fun p => p.1 = c)).map (fun p => round2 p.2)) ∧
    ((update_daily_scores base today hist d).rows.filter
        (fun r => (update_daily_scores base today hist d).colEntry d r = none)).length =
      base.length - base.countP (fun c => (today.find? (fun p => p.1 = c)).isSome) := by
  have hjoin := leftJoin_eq_map base hist hnd
  refine ⟨?_, ?_, ?_⟩
  · by_cases hd : d ∈ hist.dates
    · rw [update_rows_map base today hist d hd, hjoin, List.length_map, List.length_map]
    · rw [update_rows_append base today hist d hd, hjoin, List.length_map, List.length_map]
  · intro c hc
    rw [colValue_update base today hist d c hc hw, todayCol]
  · have key : ∀ (f : String × List (Option ℚ) → String × List (Option ℚ)),
        (update_daily_scores base today hist d).rows = (leftJoinRows base hist).map f →
        (∀ r ∈ leftJoinRows base hist,
          (update_daily_scores base today hist d).colEntry d (f r) = todayCol today r.1) →
        ((update_daily_scores base today hist d).rows.filter
          (fun r => (update_daily_scores base today hist d).colEntry d r = none)).length =
          base.length - base.countP (fun c => (today.find? (fun p => p.1 = c)).isSome) := by
      intro f hrows hentry
      rw [hrows, List.filter_map, List.length_map, ← List.countP_eq_length_filter]
      have hcong : List.countP ((fun r => decide
          ((update_daily_scores base today hist d).colEntry d r = none)) ∘ f)
            (leftJoinRows base hist)
          = List.countP (fun r => decide (todayCol today r.1 = none))
            (leftJoinRows base hist) := by
        apply List.countP_congr
        intro r hr
        simp only [Function.comp_apply, decide_eq_true_eq]
        rw [hentry r hr]
      rw [hcong, hjoin, List.countP_map]
      have hcong2 : List.countP ((fun r => decide (todayCol today r.1 = none)) ∘ blockRow hist)
            base
          = List.countP (fun c => ((today.find? (fun p => p.1 = c)).isSome = false)) base := by
        apply List.countP_congr
        intro c hc
        simp only [Function.comp_apply, decide_eq_true_eq]
        rw [blockRow_key hist hnd c, todayCol_eq_none]
      rw [hcong2]
      have hsplit := List.length_eq_countP_add_countP
        (fun c => (today.find? (fun p => p.1 = c)).isSome) base
      have hcong3 : List.countP (fun a => decide
          ¬(today.find? (fun p => p.1 = a)).isSome = true) base
          = List.countP (fun c => ((today.find? (fun p => p.1 = c)).isSome = false)) base := by
        apply List.countP_congr
        intro c hc
        simp
      omega
    by_cases hd : d ∈ hist.dates
    · exact key _ (update_rows_map base today hist d hd) (fun r hr => by
        have := update_entry_all base today hist d hw r hr
        rw [if_pos hd] at this
        exact this)
    · exact key _ (update_rows_append base today hist d hd) (fun r hr => by
        have := update_entry_all base today hist d hw r hr
        rw [if_neg hd] at this
        exact this)

/-- With distinct base companies, filtering the block concatenation by a
present company yields exactly its block. -/
theorem filter_flatMap_single {β : Type} (base : List String) (g : String → List β)
    (key : β → String) (c : String)
    (hkey : ∀ c' r, r ∈ g c' → key r = c') (hb : base.Nodup) (hc : c ∈ base) :
    (base.flatMap g).filter (fun r => key r = c) = g c := by
  induction base with
  | nil => exact absurd hc (List.not_mem_nil c)
  | cons a bs ih =>
    rw [List.nodup_cons] at hb
    rw [List.flatMap_cons, List.filter_append]
    rcases List.mem_cons.mp hc with h | h
    · have h1 : (g a).filter (fun r => key r = c) = g a := by
        rw [List.filter_eq_self]
        intro r hr
        simp [hkey a r hr, h]
      have h2 : (bs.flatMap g).filter (fun r => key r = c) = [] := by
        rw [List.filter_eq_nil_iff]
        intro r hr
        rw [List.mem_flatMap] at hr
        obtain ⟨c', hc', hr'⟩ := hr
        rw [hkey c' r hr']
        simp only [decide_eq_true_eq]
        intro heq
        rw [heq, h] at hc'
        exact hb.1 hc'
      rw [h1, h2, List.append_nil, h]
    · have h1 : (g a).filter (fun r => key r = c) = [] := by
        rw [List.filter_eq_nil_iff]
        intro r hr
        rw [hkey a r hr]
        simp only [decide_eq_true_eq]
        intro heq
        rw [heq] at hb
        exact hb.1 h
      rw [h1, List.nil_append]
      exact ih hb.2 h

/-- Overwriting the appended last element. -/
theorem set_concat {α : Type} (l : List α) (a b : α) :
    (l ++ [a]).set l.length b = l ++ [b] := by
  induction l with
  | nil => rfl
  | cons x t ih => simp [List.set_cons_succ, ih]

/-- Tables agreeing on both fields are equal. -/
theorem tstable_eq (a b : TSTable) (h1 : a.dates = b.dates) (h2 : a.rows = b.rows) :
    a = b := by
  cases a
  cases b
  simp_all

/-- Re-joining a table that was itself produced by the base-driven join (with
a key-preserving per-row update) returns its rows unchanged. -/
theorem join_of_constructed (base : List String) (hist : TSTable) (t1 : TSTable)
    (f : String × List (Option ℚ) → String × List (Option ℚ))
    (hf : ∀ r, (f r).1 = r.1) (hb : base.Nodup)
    (hrows : t1.rows = (leftJoinRows base hist).map f) :
    leftJoinRows base t1 = t1.rows := by
  rw [leftJoinRows]
  have hblock : ∀ c ∈ base, histBlock t1 c = (histBlock hist c).map f := by
    intro c hc
    have hmatch : matchRows t1 c = (histBlock hist c).map f := by
      rw [matchRows, hrows, List.filter_map]
      have hpred : ((fun r : String × List (Option ℚ) => decide (r.1 = c)) ∘ f)
          = (fun r : String × List (Option ℚ) => decide (r.1 = c)) := by
        funext r
        simp [hf r]
      rw [hpred, leftJoinRows,
        filter_flatMap_single base (histBlock hist) Prod.fst c
          (fun c' r hr => histBlock_key hist c' r hr) hb hc]
    rw [histBlock, hmatch]
    cases hg : (histBlock hist c).map f with
    | nil =>
      exfalso
      rcases List.map_eq_nil_iff.mp hg with hnil
      exact histBlock_ne_nil hist c hnil
    | cons m ms => rfl
  calc base.flatMap (histBlock t1)
      = base.flatMap (fun c => (histBlock hist c).map f) := List.flatMap_congr hblock
    _ = ((base.flatMap (histBlock hist)).map f) := (List.map_flatMap f (histBlock hist) base).symm
    _ = t1.rows := by rw [← leftJoinRows, ← hrows]

/-- C6: the merge is idempotent per date: with a reference table of distinct
company keys and a well-formed history, merging the same `date_key` twice
with the same today-records leaves the table exactly as after the first merge
(the date column is fully recomputed, not incrementally updated). -/
theorem claim_C6 (base : List String) (today : List (String × ℚ)) (hist : TSTable)
    (d : String) (hb : base.Nodup) (hw : hist.wellFormed) :
    update_daily_scores base today (update_daily_scores base today hist d) d =
      update_daily_scores base today hist d := by
  by_cases hd : d ∈ hist.dates
  · -- the date column already existed: both runs overwrite in place
    have hdates1 : (update_daily_scores base today hist d).dates = hist.dates := by
      rw [update_dates, if_pos hd]
    have hd1 : d ∈ (update_daily_scores base today hist d).dates := by
      rw [hdates1]; exact hd
    have hrows1 := update_rows_map base today hist d hd
    have hjoin2 := join_of_constructed base hist (update_daily_scores base today hist d)
      (fun r => (r.1, r.2.set (dateIdx hist.dates d) (todayCol today r.1)))
      (fun r => rfl) hb hrows1
    apply tstable_eq
    · rw [update_dates, if_pos hd1, hdates1]
    · rw [update_rows_map base today (update_daily_scores base today hist d) d hd1,
        hjoin2, hrows1, List.map_map]
      apply List.map_congr_left
      intro r hr
      simp only [Function.comp_apply, hdates1]
      rw [List.set_set]
  · -- the date column is new: the first run appends it, the second overwrites it
    have hdates1 : (update_daily_scores base today hist d).dates = hist.dates ++ [d] := by
      rw [update_dates, if_neg hd]
    have hd1 : d ∈ (update_daily_scores base today hist d).dates := by
      rw [hdates1]; exact List.mem_append_right _ (List.mem_singleton_self d)
    have hrows1 := update_rows_append base today hist d hd
    have hjoin2 := join_of_constructed base hist (update_daily_scores base today hist d)
      (fun r => (r.1, r.2 ++ [todayCol today r.1]))
      (fun r => rfl) hb hrows1
    apply tstable_eq
    · rw [update_dates, if_pos hd1, hdates1]
    · rw [update_rows_map base today (update_daily_scores base today hist d) d hd1,
        hjoin2, hrows1, List.map_map]
      apply List.map_congr_left
      intro r hr
      simp only [Function.comp_apply, hdates1]
      rw [dateIdx_append_self hist.dates d hd]
      have hlen := joined_row_length base hist hw r hr
      rw [← hlen, set_concat]

/-- C6, witness: the idempotence theorem applied to a one-company reference
table over an empty history. -/
theorem claim_C6_witness :
    update_daily_scores ["A(1)"] [("A(1)", mkRat 7 10)]
        (update_daily_scores ["A(1)"] [("A(1)", mkRat 7 10)] (TSTable.mk [] []) "d1") "d1" =
      update_daily_scores ["A(1)"] [("A(1)", mkRat 7 10)] (TSTable.mk [] []) "d1" :=
  claim_C6 ["A(1)"] [("A(1)", mkRat 7 10)] (TSTable.mk [] []) "d1" (by decide) (by decide)

/-- C7, witness: the completeness theorem applied to a two-company reference
table with one company covered today. -/
theorem claim_C7_witness :
    (update_daily_scores ["A(1)", "B(2)"] [("A(1)", mkRat 6 10)]
        (TSTable.mk [] []) "d1").rows.length = (["A(1)", "B(2)"] : List String).length ∧
    (∀ c ∈ (["A(1)", "B(2)"] : List String),
      (update_daily_scores ["A(1)", "B(2)"] [("A(1)", mkRat 6 10)]
          (TSTable.mk [] []) "d1").colValue c "d1" =
        ([("A(1)", mkRat 6 10)].find? (fun p => p.1 = c)).map (fun p => round2 p.2)) ∧
    ((update_daily_scores ["A(1)", "B(2)"] [("A(1)", mkRat 6 10)]
        (TSTable.mk [] []) "d1").rows.filter
          (fun r => (update_daily_scores ["A(1)", "B(2)"] [("A(1)", mkRat 6 10)]
            (TSTable.mk [] []) "d1").colEntry "d1" r = none)).length =
      (["A(1)", "B(2)"] : List String).length -
        (["A(1)", "B(2)"] : List String).countP
          (fun c => ([("A(1)", mkRat 6 10)].find? (fun p => p.1 = c)).isSome) :=
  claim_C7 ["A(1)", "B(2)"] [("A(1)", mkRat 6 10)] (TSTable.mk [] []) "d1"
    (by decide) (by decide)

end StockNews
